import Mathlib

/-!
Verification of the ReportMaster thread-reconstruction and categorization core.

The Python source is shallowly embedded: strings are lists of characters,
Python sets of strings are finite sets, timestamps are rationals measured in
days (`none` = missing date), and the float similarity threshold is a rational.
Character lowering and whitespace are modelled over the ASCII and Cyrillic
ranges the program actually manipulates.
-/

namespace ReportMaster

section Core

attribute [local semireducible] Rat.sub Rat.add Rat.mul Rat.inv

abbrev Str := List Char

/-- Python `str.lower` restricted to the ASCII and Cyrillic letters used by the
program: `A`-`Z`, `А`-`Я` shift by 32 code points, `Ё` maps to `ё`. -/
def pyToLower (c : Char) : Char :=
  let n := c.toNat
  if 0x41 ≤ n ∧ n ≤ 0x5A then Char.ofNat (n + 32)
  else if 0x410 ≤ n ∧ n ≤ 0x42F then Char.ofNat (n + 32)
  else if n = 0x401 then Char.ofNat 0x451
  else c

def lowerStr (s : Str) : Str := s.map pyToLower

/-- Python whitespace (`str.isspace`) over ASCII: space, tab, LF, VT, FF, CR. -/
def pyIsSpace (c : Char) : Bool :=
  c = ' ' || c = Char.ofNat 9 || c = Char.ofNat 10 || c = Char.ofNat 11 ||
    c = Char.ofNat 12 || c = Char.ofNat 13

/-- Worker for Python `str.split()` (no argument): split on whitespace runs,
dropping empty pieces; `acc` is the word currently being read. -/
def pySplitAux : Str → Str → List Str
  | [], acc => if acc = [] then [] else [acc]
  | c :: rest, acc =>
    if pyIsSpace c then
      if acc = [] then pySplitAux rest [] else acc :: pySplitAux rest []
    else
      pySplitAux rest (acc ++ [c])

def pySplit (s : Str) : List Str := pySplitAux s []

/-- Python `" ".join(ws)`. -/
def joinSpace : List Str → Str
  | [] => []
  | [w] => w
  | w :: ws => w ++ ' ' :: joinSpace ws

/-- Python `str.strip()` (whitespace from both ends). -/
def pyStrip (s : Str) : Str :=
  ((s.dropWhile pyIsSpace).reverse.dropWhile pyIsSpace).reverse

/-- `headMatches p s` holds when `p` is an initial segment of `s`
(Python `str.startswith`, regex `^literal`). -/
def headMatches : Str → Str → Bool
  | [], _ => true
  | _ :: _, [] => false
  | p :: ps, c :: cs => p = c && headMatches ps cs

/-- Python `needle in hay` (contiguous substring test). -/
def hasSub (needle : Str) : Str → Bool
  | [] => headMatches needle []
  | c :: rest => headMatches needle (c :: rest) || hasSub needle rest

/-- Python `str.split(sep)` for a single-character separator (keeps empties). -/
def splitCharAux (sep : Char) : Str → Str → List Str
  | [], acc => [acc]
  | c :: rest, acc =>
    if c = sep then acc :: splitCharAux sep rest [] else splitCharAux sep rest (acc ++ [c])

def splitChar (sep : Char) (s : Str) : List Str := splitCharAux sep s []

/-- Python `line.split(":", 1)[1]`: everything after the first colon
(callers guard that a colon is present). -/
def afterFirstColon : Str → Str
  | [] => []
  | c :: rest => if c = ':' then rest else afterFirstColon rest

/-! ## Subject normalizer (`ThreadBuilder._normalize_subject`) -/

/-- One `re.sub(r"^lit", "", s)` application for a literal pattern: the match is
anchored at the start, so at most one occurrence is removed. -/
def stripLit (p : Str) (s : Str) : Str :=
  if headMatches p s then s.drop p.length else s

/-- One `re.sub(r"^\[.*?\]", "", s)` application: `.` does not cross a newline,
and the non-greedy star stops at the first `]`. -/
def stripBracket (s : Str) : Str :=
  match s with
  | '[' :: rest =>
    match rest.drop ((rest.takeWhile fun c => ¬(c = ']' ∨ c = Char.ofNat 10)).length) with
    | ']' :: tail => tail
    | _ => s
  | _ => s

/-- The prefix-pattern loop of `_normalize_subject`: each of the five patterns
is applied exactly once, in source order. -/
def stripMarkers (s : Str) : Str :=
  stripBracket (stripLit ( "aw:".toList) (stripLit ( "fwd:".toList)
    (stripLit ( "fw:".toList) (stripLit ( "re:".toList) s))))

/-- `ThreadBuilder._normalize_subject`. -/
def normalizeSubject (s : Str) : Str :=
  if s = [] then []
  else pyStrip (joinSpace (pySplit (stripMarkers (lowerStr s))))

/-! ## Data model (`EmailMessage`, `EmailThread`) -/

/-- The fields of a parsed message that the core reads. Dates are rationals in
days, `none` when the date could not be determined. -/
structure EmailMessage where
  subject : Str
  sender : Str
  recipients : List Str
  cc : List Str
  date : Option ℚ
  body : Str
  attachmentCount : ℕ
deriving DecidableEq, Repr

/-- `{msg.sender, *msg.recipients, *msg.cc}`. -/
def participantSet (m : EmailMessage) : Finset Str :=
  insert m.sender (m.recipients.toFinset ∪ m.cc.toFinset)

/-- Comparison used by every sort in the builder:
`key = m.date if m.date else datetime.min`, so undated messages sort first and
ties keep input order. Python sort is stable, so the stable
`List.insertionSort` below computes the same result. -/
def dateLe (a b : EmailMessage) : Bool :=
  match a.date, b.date with
  | none, _ => true
  | some _, none => false
  | some x, some y => x ≤ y

/-- Stable date-ascending sort (`sorted(msgs, key=...)`). -/
def sortByDate (msgs : List EmailMessage) : List EmailMessage :=
  msgs.insertionSort fun a b => dateLe a b = true

structure EmailThread where
  messages : List EmailMessage
deriving DecidableEq, Repr

/-- The `add_message`/`_update_metadata` loop: each append re-sorts the
message list by date. -/
def mkThread (sub : List EmailMessage) : EmailThread :=
  ⟨sub.foldl (fun acc m => sortByDate (acc ++ [m])) []⟩

/-- Thread subject = subject of the (sorted) first message. -/
def EmailThread.subject (t : EmailThread) : Str :=
  match t.messages with
  | [] => []
  | m :: _ => m.subject

def EmailThread.messageCount (t : EmailThread) : ℕ := t.messages.length

def EmailThread.participants (t : EmailThread) : Finset Str :=
  t.messages.foldl (fun s m => s ∪ participantSet m) ∅

/-! ## Thread builder (`ThreadBuilder`) -/

/-- Insert a message into the ordered subject-group association list
(Python dict keyed by normalized subject, insertion-ordered). -/
def upsertGroup (key : Str) (m : EmailMessage) :
    List (Str × List EmailMessage) → List (Str × List EmailMessage)
  | [] => [(key, [m])]
  | (k, g) :: rest =>
    if k = key then (k, g ++ [m]) :: rest else (k, g) :: upsertGroup key m rest

def groupAux : List EmailMessage → List (Str × List EmailMessage) →
    List (Str × List EmailMessage)
  | [], groups => groups
  | m :: rest, groups => groupAux rest (upsertGroup (normalizeSubject m.subject) m groups)

/-- `ThreadBuilder._group_by_subject`. -/
def groupBySubject (msgs : List EmailMessage) : List (Str × List EmailMessage) :=
  groupAux msgs []

/-- The scan of `_split_by_participants`: find the first open cluster whose
non-empty cumulative participant set overlaps `P` at ratio at least `θ`;
append there and enlarge the set. `none` when no cluster matches. -/
def tryPlace (θ : ℚ) (P : Finset Str) (m : EmailMessage) :
    List (List EmailMessage × Finset Str) → Option (List (List EmailMessage × Finset Str))
  | [] => none
  | (g, C) :: rest =>
    if C = ∅ then (tryPlace θ P m rest).map (fun r => (g, C) :: r)
    else if ((P ∩ C).card : ℚ) / ((max P.card 1 : ℕ) : ℚ) ≥ θ then
      some ((g ++ [m], C ∪ P) :: rest)
    else (tryPlace θ P m rest).map (fun r => (g, C) :: r)

def placeAll (θ : ℚ) : List EmailMessage → List (List EmailMessage × Finset Str) →
    List (List EmailMessage × Finset Str)
  | [], groups => groups
  | m :: rest, groups =>
    match tryPlace θ (participantSet m) m groups with
    | some groups2 => placeAll θ rest groups2
    | none => placeAll θ rest (groups ++ [([m], participantSet m)])

/-- `ThreadBuilder._split_by_participants`. -/
def splitByParticipants (θ : ℚ) (msgs : List EmailMessage) : List (List EmailMessage) :=
  if msgs.length ≤ 1 then [msgs]
  else (placeAll θ msgs []).map (fun g => g.1)

/-- The walk of `_split_by_time_gap` over the date-sorted list: `prev` is the
previous sorted element, `current` the open sub-thread. A split happens inside
the branch where both dates are defined and the gap strictly exceeds the
maximum; in every other branch the message joins the open sub-thread. -/
def gapWalk (maxGap : ℚ) : EmailMessage → List EmailMessage → List EmailMessage →
    List (List EmailMessage)
  | _, current, [] => [current]
  | prev, current, cur :: rest =>
    match cur.date, prev.date with
    | some dc, some dp =>
      if dc - dp > maxGap then current :: gapWalk maxGap cur [cur] rest
      else gapWalk maxGap cur (current ++ [cur]) rest
    | _, _ => gapWalk maxGap cur (current ++ [cur]) rest

/-- `ThreadBuilder._split_by_time_gap`. The source's trailing
`sub_threads if sub_threads else [messages]` fallback is unreachable (the walk
always emits the open sub-thread) and is not modelled. -/
def splitByTimeGap (maxGap : ℚ) (msgs : List EmailMessage) : List (List EmailMessage) :=
  if msgs.length ≤ 1 then [msgs]
  else
    match sortByDate msgs with
    | [] => [msgs]
    | first :: rest => gapWalk maxGap first [first] rest

/-- `ThreadBuilder.build_threads`. The sequential display ids
(`THREAD_001`, ...) are presentation only and not modelled. -/
def buildThreads (θ maxGap : ℚ) (msgs : List EmailMessage) : List EmailThread :=
  if msgs = [] then []
  else
    (groupBySubject msgs).flatMap fun kg =>
      (((splitByParticipants θ kg.2).flatMap (splitByTimeGap maxGap)).map mkThread)

/-! ## Keyword extractor (`Categorizer._extract_keywords`) -/

/-- A character matched by the class `[a-zA-Zа-яА-Я0-9]`. -/
def isWordChar (c : Char) : Bool :=
  let n := c.toNat
  decide ((0x61 ≤ n ∧ n ≤ 0x7A) ∨ (0x41 ≤ n ∧ n ≤ 0x5A) ∨ (0x430 ≤ n ∧ n ≤ 0x44F) ∨
    (0x410 ≤ n ∧ n ≤ 0x42F) ∨ (0x30 ≤ n ∧ n ≤ 0x39))

/-- Maximal runs of word characters, left to right. -/
def wordRunsAux : Str → Str → List Str
  | [], acc => if acc = [] then [] else [acc]
  | c :: rest, acc =>
    if isWordChar c then wordRunsAux rest (acc ++ [c])
    else if acc = [] then wordRunsAux rest [] else acc :: wordRunsAux rest []

/-- `re.findall(r"[a-zA-Zа-яА-Я0-9]{3,}", s)`: the maximal word-character runs
of length at least 3. -/
def findTokens (s : Str) : List Str :=
  (wordRunsAux s []).filter fun w => decide (3 ≤ w.length)

/-- The fixed two-language stopword set of `_extract_keywords`. -/
def stopWords : List Str :=
  [ "the", "is", "at", "which", "on", "and", "a", "an", "as", "to", "for", "of", "in",
    "что", "это", "как", "для", "или", "при", "без", "после", "письмо"].map String.toList

def countTok (w : Str) (ws : List Str) : ℕ := (ws.filter fun x => x = w).length

/-- Distinct tokens in first-occurrence order (insertion order of `Counter`). -/
def firstUniqAux : List Str → List Str → List Str
  | [], _ => []
  | w :: rest, seen =>
    if w ∈ seen then firstUniqAux rest seen else w :: firstUniqAux rest (w :: seen)

/-- `Counter(ws).most_common(n)` keys: tokens sorted by frequency descending,
ties in first-occurrence order (`heapq.nlargest` is a stable descending sort),
truncated to `n`. -/
def mostCommon (ws : List Str) (n : ℕ) : List Str :=
  ((firstUniqAux ws []).insertionSort fun a b => countTok b ws ≤ countTok a ws).take n

/-- `" ".join(msg.body for msg in thread.messages if msg.body)`. -/
def threadText (t : EmailThread) : Str :=
  joinSpace ((t.messages.map fun m => m.body).filter fun b => b ≠ [])

/-- `Categorizer._extract_keywords`: tokenize the lowercased joined bodies,
keep tokens of length strictly greater than 3 that are not stopwords, return
the `topN` most frequent. -/
def keywordCandidates (t : EmailThread) : List Str :=
  (findTokens (lowerStr (threadText t))).filter fun w => decide (3 < w.length ∧ w ∉ stopWords)

def extractKeywords (t : EmailThread) (topN : ℕ) : List Str :=
  mostCommon (keywordCandidates t) topN

/-! ## Classifier adapter (`GigaChatAPIClient`) and categorizer -/

/-- The observable outcome of one external chat-completion call: the returned
text, or the textual rendering `str(e)` of the raised exception. -/
inductive ApiOutcome where
  | success (content : Str)
  | failure (err : Str)
deriving DecidableEq, Repr

/-- `GigaChatAPIClient._is_auth_error` (`and` binds tighter than `or`). -/
def isAuthError (err : Str) : Bool :=
  let text := lowerStr err
  hasSub ( "401".toList) text || hasSub ( "403".toList) text ||
    hasSub ( "invalid_token".toList) text || hasSub ( "unauthorized".toList) text ||
    hasSub ( "forbidden".toList) text ||
    (hasSub ( "basic".toList) text && hasSub ( "auth".toList) text)

/-- The response-parsing loop of `categorize_thread`: start from the default
pair, overwrite on each line that carries a marker. -/
def parseCatLines : List Str → Str × Str → Str × Str
  | [], acc => acc
  | line :: rest, acc =>
    if headMatches ( "Категория:".toList) line || headMatches ( "Category:".toList) line then
      parseCatLines rest (pyStrip (afterFirstColon line), acc.2)
    else if headMatches ( "Описание:".toList) line || headMatches ( "Description:".toList) line then
      parseCatLines rest (acc.1, pyStrip (afterFirstColon line))
    else parseCatLines rest acc

def defaultCategoryName : Str := "Без категории".toList

def parseCategorization (content : Str) : Str × Str :=
  parseCatLines (splitChar (Char.ofNat 10) content) (defaultCategoryName, [])

/-- Fallback description produced inside `categorize_thread` on failure. -/
def apiFallbackDesc : Str := "Категория определена по теме переписки".toList

/-- Fallback description of the categorizer's local else-branch:
`f"Thread with {thread.message_count} messages"`. -/
def localFallbackDesc (n : ℕ) : Str :=
  "Thread with ".toList ++ (toString n).toList ++ " messages".toList

/-- `Categorizer._normalize_category_name`:
`" ".join((name or "Без категории").lower().split())[:120]`. The default is
substituted only when `name` is the empty (falsy) string. -/
def normalizeCategoryName (name : Str) : Str :=
  (joinSpace (pySplit (lowerStr (if name = [] then defaultCategoryName else name)))).take 120

/-- What one loop iteration of `Categorizer.categorize_threads` observes:
whether the external classifier was invoked, the label and description adopted,
and the circuit-breaker state (`api_client.client is not None`) afterwards. -/
structure StepInfo where
  invoked : Bool
  name : Str
  desc : Str
  enabledAfter : Bool
deriving DecidableEq, Repr

/-- One iteration of the categorize loop composed with
`GigaChatAPIClient.categorize_thread`: when AI labeling is on and the client
is usable the external call happens (its prompt is abstracted into the
outcome); a raised error falls back to the truncated subject and, when the
error text matches the auth signature, permanently clears the client.
Otherwise the local fallback runs without any call. -/
def catStepLabel (aiEnabled enabled : Bool) (outcome : ApiOutcome) (t : EmailThread) :
    StepInfo :=
  if aiEnabled && enabled then
    match outcome with
    | .success content =>
      let r := parseCategorization content
      ⟨true, r.1, r.2, enabled⟩
    | .failure err => ⟨true, t.subject.take 50, apiFallbackDesc, !isAuthError err⟩
  else
    ⟨false, t.subject.take 50, localFallbackDesc t.messageCount, enabled⟩

structure ThreadCategory where
  categoryId : ℕ
  name : Str
  description : Str
  threads : List EmailThread
deriving DecidableEq, Repr

/-- Lookup in `categories_by_name` (key to position of the owning category). -/
def keyFind (key : Str) : List (Str × ℕ) → Option ℕ
  | [] => none
  | (k, i) :: rest => if k = key then some i else keyFind key rest

/-- `category.add_thread(thread)` on the category at position `idx`. -/
def appendThreadAt : List ThreadCategory → ℕ → EmailThread → List ThreadCategory
  | [], _, _ => []
  | c :: cs, 0, t => { c with threads := c.threads ++ [t] } :: cs
  | c :: cs, n + 1, t => c :: appendThreadAt cs n t

/-- The loop of `Categorizer.categorize_threads`: per thread, compute the
label (`catStepLabel`), normalize it, then either append to the category
already owning that key or create a new category with the next sequential id.
Returns the per-step observations and the final category list. -/
def catRun (aiEnabled : Bool) (outcomes : ℕ → ApiOutcome) :
    ℕ → Bool → List ThreadCategory → List (Str × ℕ) → List EmailThread →
    List StepInfo × List ThreadCategory
  | _, _, cats, _, [] => ([], cats)
  | i, enabled, cats, keys, t :: rest =>
    let info := catStepLabel aiEnabled enabled (outcomes i) t
    let key := normalizeCategoryName info.name
    let next :=
      match keyFind key keys with
      | some idx => (appendThreadAt cats idx t, keys)
      | none =>
        (cats ++ [(⟨cats.length + 1, info.name, info.desc, [t]⟩ : ThreadCategory)],
         keys ++ [(key, cats.length)])
    let r := catRun aiEnabled outcomes (i + 1) info.enabledAfter next.1 next.2 rest
    (info :: r.1, r.2)

/-- `Categorizer.categorize_threads`. -/
def categorizeThreads (aiEnabled enabled : Bool) (outcomes : ℕ → ApiOutcome)
    (threads : List EmailThread) : List ThreadCategory :=
  if threads = [] then [] else (catRun aiEnabled outcomes 0 enabled [] [] threads).2

/-! ## Specification-side definitions, for the refinement claims -/

/-- Modelled from the spec wording of participant clustering: scan clusters in
creation order and take the first whose cumulative set reaches the overlap
ratio — with no guard on empty cumulative sets (compare `tryPlace`). -/
def tryPlaceSpec (θ : ℚ) (P : Finset Str) (m : EmailMessage) :
    List (List EmailMessage × Finset Str) → Option (List (List EmailMessage × Finset Str))
  | [] => none
  | (g, C) :: rest =>
    if ((P ∩ C).card : ℚ) / ((max P.card 1 : ℕ) : ℚ) ≥ θ then
      some ((g ++ [m], C ∪ P) :: rest)
    else (tryPlaceSpec θ P m rest).map (fun r => (g, C) :: r)

def placeAllSpec (θ : ℚ) : List EmailMessage → List (List EmailMessage × Finset Str) →
    List (List EmailMessage × Finset Str)
  | [], groups => groups
  | m :: rest, groups =>
    match tryPlaceSpec θ (participantSet m) m groups with
    | some groups2 => placeAllSpec θ rest groups2
    | none => placeAllSpec θ rest (groups ++ [([m], participantSet m)])

/-- Modelled from the spec wording of gap splitting: a split happens at a
consecutive pair exactly when both messages carry a date and the gap strictly
exceeds the maximum. -/
def gapBoundary (maxGap : ℚ) (prev cur : EmailMessage) : Bool :=
  prev.date.isSome && cur.date.isSome &&
    decide (cur.date.getD 0 - prev.date.getD 0 > maxGap)

/-- Chunking driven by an arbitrary boundary predicate on consecutive pairs. -/
def chunkWhen (p : EmailMessage → EmailMessage → Bool) :
    EmailMessage → List EmailMessage → List EmailMessage → List (List EmailMessage)
  | _, current, [] => [current]
  | prev, current, cur :: rest =>
    if p prev cur then current :: chunkWhen p cur [cur] rest
    else chunkWhen p cur (current ++ [cur]) rest

/-! ## Proof-side helper definitions -/

/-- The per-step observations of `catRun`, which do not depend on the
accumulated categories. -/
def labelRun (aiEnabled : Bool) (outcomes : ℕ → ApiOutcome) :
    ℕ → Bool → List EmailThread → List StepInfo
  | _, _, [] => []
  | i, enabled, t :: rest =>
    let info := catStepLabel aiEnabled enabled (outcomes i) t
    info :: labelRun aiEnabled outcomes (i + 1) info.enabledAfter rest

/-- The normalized dedup key a category answers to. -/
def catKey (c : ThreadCategory) : Str := normalizeCategoryName c.name

/-- Position of the first category owning a key, the ideal content of
`categories_by_name`. -/
def idxOfKey (key : Str) : List ThreadCategory → Option ℕ
  | [] => none
  | c :: cs =>
    if catKey c = key then some 0 else (idxOfKey key cs).map (· + 1)

/-- All threads owned across a category list. -/
def joinThreads (cats : List ThreadCategory) : List EmailThread :=
  (cats.map fun c => c.threads).flatten

/-! # Theorems

## Character and whitespace lemmas -/

theorem char_toNat_ofNat (n : ℕ) (h : Nat.isValidChar n) : (Char.ofNat n).toNat = n := by
  unfold Char.ofNat
  rw [dif_pos h]
  rfl

theorem pyToLower_shape (c : Char) :
    ¬(0x41 ≤ (pyToLower c).toNat ∧ (pyToLower c).toNat ≤ 0x5A) ∧
    ¬(0x410 ≤ (pyToLower c).toNat ∧ (pyToLower c).toNat ≤ 0x42F) ∧
    (pyToLower c).toNat ≠ 0x401 := by
  unfold pyToLower
  by_cases h1 : 0x41 ≤ c.toNat ∧ c.toNat ≤ 0x5A
  · rw [if_pos h1, char_toNat_ofNat (c.toNat + 32) (Or.inl (by omega))]
    omega
  · rw [if_neg h1]
    by_cases h2 : 0x410 ≤ c.toNat ∧ c.toNat ≤ 0x42F
    · rw [if_pos h2, char_toNat_ofNat (c.toNat + 32) (Or.inl (by omega))]
      omega
    · rw [if_neg h2]
      by_cases h3 : c.toNat = 0x401
      · rw [if_pos h3, char_toNat_ofNat 0x451 (Or.inl (by omega))]
        omega
      · rw [if_neg h3]
        exact ⟨h1, h2, h3⟩

theorem pyToLower_fixed_of (d : Char) (h1 : ¬(0x41 ≤ d.toNat ∧ d.toNat ≤ 0x5A))
    (h2 : ¬(0x410 ≤ d.toNat ∧ d.toNat ≤ 0x42F)) (h3 : d.toNat ≠ 0x401) :
    pyToLower d = d := by
  unfold pyToLower
  rw [if_neg h1, if_neg h2, if_neg h3]

theorem pyToLower_idem (c : Char) : pyToLower (pyToLower c) = pyToLower c := by
  obtain ⟨h1, h2, h3⟩ := pyToLower_shape c
  exact pyToLower_fixed_of _ h1 h2 h3

theorem pyToLower_space {c : Char} (h : pyIsSpace c = true) : pyToLower c = c := by
  simp only [pyIsSpace, Bool.or_eq_true, decide_eq_true_eq] at h
  rcases h with ((((rfl | rfl) | rfl) | rfl) | rfl) | rfl <;> decide

theorem map_eq_self_of_fixed {f : Char → Char} :
    ∀ {l : Str}, (∀ c ∈ l, f c = c) → l.map f = l
  | [], _ => rfl
  | c :: l, h => by
    rw [List.map_cons, h c (List.mem_cons_self c l),
      map_eq_self_of_fixed fun d hd => h d (List.mem_cons_of_mem c hd)]

/-! ## Membership lemmas for the normalizer pipeline -/

theorem mem_stripLit {p s : Str} {c : Char} (h : c ∈ stripLit p s) : c ∈ s := by
  unfold stripLit at h
  split at h
  · exact List.drop_subset _ _ h
  · exact h

theorem mem_stripBracket {s : Str} {c : Char} (h : c ∈ stripBracket s) : c ∈ s := by
  unfold stripBracket at h
  split at h
  next rest =>
    split at h
    next tail heq =>
      have h2 : c ∈ ']' :: tail := List.mem_cons_of_mem _ h
      rw [← heq] at h2
      exact List.mem_cons_of_mem _ (List.drop_subset _ _ h2)
    next => exact h
  next => exact h

theorem mem_stripMarkers {s : Str} {c : Char} (h : c ∈ stripMarkers s) : c ∈ s :=
  mem_stripLit (mem_stripLit (mem_stripLit (mem_stripLit (mem_stripBracket h))))

theorem mem_pySplitAux {w : Str} {c : Char} :
    ∀ {s acc : Str}, w ∈ pySplitAux s acc → c ∈ w → c ∈ s ∨ c ∈ acc := by
  intro s
  induction s with
  | nil =>
    intro acc hw hc
    unfold pySplitAux at hw
    split at hw
    · simp at hw
    · rw [List.mem_singleton] at hw
      subst hw
      exact Or.inr hc
  | cons d rest ih =>
    intro acc hw hc
    rw [pySplitAux] at hw
    split at hw
    · split at hw
      · rcases ih hw hc with h | h
        · exact Or.inl (List.mem_cons_of_mem _ h)
        · simp at h
      · rcases List.mem_cons.mp hw with rfl | hw2
        · exact Or.inr hc
        · rcases ih hw2 hc with h | h
          · exact Or.inl (List.mem_cons_of_mem _ h)
          · simp at h
    · rcases ih hw hc with h | h
      · exact Or.inl (List.mem_cons_of_mem _ h)
      · rcases List.mem_append.mp h with h2 | h2
        · exact Or.inr h2
        · rw [List.mem_singleton] at h2
          subst h2
          exact Or.inl (List.mem_cons_self _ _)

theorem mem_pySplit {s w : Str} {c : Char} (hw : w ∈ pySplit s) (hc : c ∈ w) : c ∈ s := by
  rcases mem_pySplitAux hw hc with h | h
  · exact h
  · simp at h

theorem mem_joinSpace {c : Char} :
    ∀ {ws : List Str}, c ∈ joinSpace ws → (∃ w ∈ ws, c ∈ w) ∨ c = ' '
  | [], h => by simp [joinSpace] at h
  | [w], h => by
    exact Or.inl ⟨w, List.mem_singleton_self w, h⟩
  | w :: w2 :: ws, h => by
    have hj : joinSpace (w :: w2 :: ws) = w ++ ' ' :: joinSpace (w2 :: ws) := rfl
    rw [hj] at h
    rcases List.mem_append.mp h with h2 | h2
    · exact Or.inl ⟨w, List.mem_cons_self _ _, h2⟩
    · rcases List.mem_cons.mp h2 with rfl | h3
      · exact Or.inr rfl
      · rcases mem_joinSpace h3 with ⟨v, hv, hcv⟩ | h4
        · exact Or.inl ⟨v, List.mem_cons_of_mem _ hv, hcv⟩
        · exact Or.inr h4

theorem mem_pyStrip {s : Str} {c : Char} (h : c ∈ pyStrip s) : c ∈ s := by
  unfold pyStrip at h
  rw [List.mem_reverse] at h
  have h2 := (List.dropWhile_sublist _).subset h
  rw [List.mem_reverse] at h2
  exact (List.dropWhile_sublist _).subset h2

theorem lower_fixed_normalizeSubject {s : Str} :
    ∀ c ∈ normalizeSubject s, pyToLower c = c := by
  intro c hc
  unfold normalizeSubject at hc
  split at hc
  · simp at hc
  · have h1 := mem_pyStrip hc
    rcases mem_joinSpace h1 with ⟨w, hw, hcw⟩ | rfl
    · have h3 := mem_stripMarkers (mem_pySplit hw hcw)
      rcases List.mem_map.mp h3 with ⟨d, _, rfl⟩
      exact pyToLower_idem d
    · decide

theorem lowerStr_normalizeSubject (s : Str) :
    lowerStr (normalizeSubject s) = normalizeSubject s :=
  map_eq_self_of_fixed (lower_fixed_normalizeSubject)

/-! ## Word-shape lemmas: splitting and rejoining are inverse on clean words -/

theorem pySplitAux_words {w : Str} :
    ∀ {s acc : Str}, (∀ c ∈ acc, pyIsSpace c = false) → w ∈ pySplitAux s acc →
      w ≠ [] ∧ ∀ c ∈ w, pyIsSpace c = false := by
  intro s
  induction s with
  | nil =>
    intro acc hacc hw
    rw [pySplitAux] at hw
    split at hw
    · simp at hw
    · rename_i hne
      rw [List.mem_singleton] at hw
      subst hw
      exact ⟨hne, hacc⟩
  | cons d rest ih =>
    intro acc hacc hw
    rw [pySplitAux] at hw
    split at hw
    · split at hw
      · exact ih (by simp) hw
      · rename_i hne
        rcases List.mem_cons.mp hw with rfl | hw2
        · exact ⟨hne, hacc⟩
        · exact ih (by simp) hw2
    · rename_i hval
      refine ih ?_ hw
      intro c hcm
      rcases List.mem_append.mp hcm with h | h
      · exact hacc c h
      · rw [List.mem_singleton] at h
        subst h
        exact Bool.eq_false_iff.mpr hval

theorem pySplitAux_append {w : Str} (hw : ∀ c ∈ w, pyIsSpace c = false) :
    ∀ (s acc : Str), pySplitAux (w ++ s) acc = pySplitAux s (acc ++ w) := by
  induction w with
  | nil => intro s acc; simp
  | cons d wrest ih =>
    intro s acc
    have hd : pyIsSpace d = false := hw d (List.mem_cons_self d wrest)
    rw [List.cons_append, pySplitAux, if_neg (by simp [hd]),
      ih (fun c hc => hw c (List.mem_cons_of_mem d hc)) s (acc ++ [d])]
    simp

theorem pySplit_joinSpace :
    ∀ {ws : List Str}, (∀ w ∈ ws, w ≠ [] ∧ ∀ c ∈ w, pyIsSpace c = false) →
      pySplit (joinSpace ws) = ws
  | [], _ => rfl
  | [w], h => by
    obtain ⟨hne, hns⟩ := h w (List.mem_singleton_self w)
    show pySplitAux (joinSpace [w]) [] = [w]
    have hjw : joinSpace [w] = w ++ [] := by simp [joinSpace]
    rw [hjw, pySplitAux_append hns [] [], List.nil_append, pySplitAux, if_neg hne]
  | w :: w2 :: ws, h => by
    obtain ⟨hne, hns⟩ := h w (List.mem_cons_self _ _)
    show pySplitAux (joinSpace (w :: w2 :: ws)) [] = w :: w2 :: ws
    have hjs : joinSpace (w :: w2 :: ws) = w ++ ' ' :: joinSpace (w2 :: ws) := rfl
    rw [hjs, pySplitAux_append hns _ [], List.nil_append, pySplitAux,
      if_pos (by decide), if_neg hne]
    exact congrArg (List.cons w) (pySplit_joinSpace (fun v hv => h v (List.mem_cons_of_mem _ hv)))

theorem dropWhile_space_eq_self {l : Str}
    (h : ∀ c, l.head? = some c → pyIsSpace c = false) :
    l.dropWhile pyIsSpace = l := by
  cases l with
  | nil => rfl
  | cons d rest =>
    rw [List.dropWhile_cons, h d rfl]
    simp

theorem joinSpace_ne_nil {ws : List Str} (hne : ws ≠ []) (h : ∀ w ∈ ws, w ≠ []) :
    joinSpace ws ≠ [] := by
  cases ws with
  | nil => exact absurd rfl hne
  | cons w ws2 =>
    cases ws2 with
    | nil => exact h w (List.mem_singleton_self w)
    | cons w2 ws3 =>
      have hjs : joinSpace (w :: w2 :: ws3) = w ++ ' ' :: joinSpace (w2 :: ws3) := rfl
      rw [hjs]
      simp

theorem joinSpace_head {ws : List Str}
    (hws : ∀ w ∈ ws, w ≠ [] ∧ ∀ c ∈ w, pyIsSpace c = false) :
    ∀ c, (joinSpace ws).head? = some c → pyIsSpace c = false := by
  intro c hc
  cases ws with
  | nil => simp [joinSpace] at hc
  | cons w ws2 =>
    obtain ⟨hne, hns⟩ := hws w (List.mem_cons_self _ _)
    obtain ⟨d, w', rfl⟩ := List.exists_cons_of_ne_nil hne
    cases ws2 with
    | nil =>
      rw [show joinSpace [d :: w'] = d :: w' from rfl] at hc
      rw [List.head?_cons, Option.some_inj] at hc
      exact hc ▸ hns d (List.mem_cons_self d w')
    | cons w2 ws3 =>
      rw [show joinSpace ((d :: w') :: w2 :: ws3) =
        (d :: w') ++ ' ' :: joinSpace (w2 :: ws3) from rfl] at hc
      rw [List.cons_append, List.head?_cons, Option.some_inj] at hc
      exact hc ▸ hns d (List.mem_cons_self d w')

theorem mem_of_getLast?_eq {l : Str} {a : Char} (h : l.getLast? = some a) : a ∈ l := by
  obtain ⟨hne, rfl⟩ := List.mem_getLast?_eq_getLast (Option.mem_def.mpr h)
  exact List.getLast_mem hne

theorem joinSpace_getLast :
    ∀ {ws : List Str}, (∀ w ∈ ws, w ≠ [] ∧ ∀ c ∈ w, pyIsSpace c = false) →
      ∀ c, (joinSpace ws).getLast? = some c → pyIsSpace c = false
  | [], _, c, hc => by simp [joinSpace] at hc
  | [w], hws, c, hc => by
    obtain ⟨hne, hns⟩ := hws w (List.mem_singleton_self w)
    rw [show joinSpace [w] = w from rfl] at hc
    exact hns c (mem_of_getLast?_eq hc)
  | w :: w2 :: ws, hws, c, hc => by
    rw [show joinSpace (w :: w2 :: ws) = w ++ ' ' :: joinSpace (w2 :: ws) from rfl,
      List.getLast?_append] at hc
    have hrest : joinSpace (w2 :: ws) ≠ [] :=
      joinSpace_ne_nil (by simp) (fun v hv => (hws v (List.mem_cons_of_mem _ hv)).1)
    obtain ⟨x, xs, hxs⟩ := List.exists_cons_of_ne_nil hrest
    rw [hxs, List.getLast?_cons_cons] at hc
    obtain ⟨y, hy⟩ := Option.isSome_iff_exists.mp
      (List.getLast?_isSome.mpr (List.cons_ne_nil x xs))
    rw [hy, show Option.or (some y) w.getLast? = some y from rfl, Option.some_inj] at hc
    refine joinSpace_getLast (fun v hv => hws v (List.mem_cons_of_mem _ hv)) c ?_
    rw [hxs, hy, hc]

theorem pyStrip_joinSpace {ws : List Str}
    (hws : ∀ w ∈ ws, w ≠ [] ∧ ∀ c ∈ w, pyIsSpace c = false) :
    pyStrip (joinSpace ws) = joinSpace ws := by
  unfold pyStrip
  rw [dropWhile_space_eq_self (joinSpace_head hws),
    dropWhile_space_eq_self ?_, List.reverse_reverse]
  intro c hc
  rw [List.head?_reverse] at hc
  exact joinSpace_getLast hws c hc

/-! ## C1: subject-normalization idempotence -/

theorem normalizeSubject_wordsOK (s : Str) :
    ∀ w ∈ pySplit (stripMarkers (lowerStr s)), w ≠ [] ∧ ∀ c ∈ w, pyIsSpace c = false :=
  fun _ hw => pySplitAux_words (by simp) hw

/-- C1 counterexample: on the claim's own nested input the two sides differ.
One pass removes only a single leading `re:`, so normalizing
`"re: re: budget"` yields `"re: budget"`, and normalizing again yields
`"budget"`. -/
theorem C1_counterexample :
    normalizeSubject (normalizeSubject ( "re: re: budget".toList)) ≠
      normalizeSubject ( "re: re: budget".toList) := by decide

/-- C1 (amended): `_normalize_subject` applies each of its five prefix patterns
once per call, not repeatedly, so idempotence holds exactly for the inputs
whose normal form carries no further leading marker: whenever `stripMarkers`
leaves `normalize(s)` unchanged, `normalize(normalize(s)) = normalize(s)`.
Inputs with nested prefixes such as `"re: re: budget"` fall outside this
hypothesis and are in fact not idempotent (see the counterexample). -/
theorem C1_normalize_idem_of_stable (s : Str)
    (h : stripMarkers (normalizeSubject s) = normalizeSubject s) :
    normalizeSubject (normalizeSubject s) = normalizeSubject s := by
  by_cases hnil : normalizeSubject s = []
  · rw [hnil]
    decide
  · by_cases hs : s = []
    · subst hs
      exact absurd rfl hnil
    · have hws := normalizeSubject_wordsOK s
      have ht : normalizeSubject s = joinSpace (pySplit (stripMarkers (lowerStr s))) := by
        rw [normalizeSubject, if_neg hs, pyStrip_joinSpace hws]
      conv_lhs => rw [normalizeSubject]
      rw [if_neg hnil, lowerStr_normalizeSubject, h, ht, pySplit_joinSpace hws,
        pyStrip_joinSpace hws]

/-- Witness: `"re: budget"` satisfies the stability hypothesis and is
idempotent under normalization. -/
theorem C1_witness :
    stripMarkers (normalizeSubject ( "re: budget".toList)) =
        normalizeSubject ( "re: budget".toList) ∧
      normalizeSubject (normalizeSubject ( "re: budget".toList)) =
        normalizeSubject ( "re: budget".toList) :=
  ⟨by decide, C1_normalize_idem_of_stable _ (by decide)⟩

/-! ## C5: category-key normalization -/

theorem pySplitAux_all_space : ∀ {s : Str}, (∀ c ∈ s, pyIsSpace c = true) →
    pySplitAux s [] = []
  | [], _ => rfl
  | c :: rest, h => by
    rw [pySplitAux, if_pos (h c (List.mem_cons_self c rest)), if_pos rfl]
    exact pySplitAux_all_space (fun d hd => h d (List.mem_cons_of_mem c hd))

theorem lowerStr_idem (s : Str) : lowerStr (lowerStr s) = lowerStr s := by
  unfold lowerStr
  rw [List.map_map]
  exact List.map_congr_left (fun c _ => pyToLower_idem c)

/-- C5 counterexample: the default label is substituted only for the empty
(falsy) string, before whitespace collapsing. A label of one space is truthy,
so it collapses to the empty key instead of receiving the default key. -/
theorem C5_counterexample :
    normalizeCategoryName ( " ".toList) = [] ∧
      normalizeCategoryName ( " ".toList) ≠ normalizeCategoryName [] := by decide

/-- C5 (amended): the normalized dedup key lowercases, collapses internal
whitespace, truncates to 120 characters, and substitutes the default label
only when the label is the empty string; a whitespace-only label therefore
receives the empty key, not the default key. Keys never exceed 120 characters,
and the key is insensitive to the case of a non-empty label. -/
theorem C5_normalize_key :
    (∀ name : Str, (normalizeCategoryName name).length ≤ 120) ∧
    normalizeCategoryName [] = ( "без категории".toList) ∧
    (∀ name : Str, name ≠ [] → (∀ c ∈ name, pyIsSpace c = true) →
      normalizeCategoryName name = []) ∧
    (∀ name : Str, name ≠ [] →
      normalizeCategoryName (lowerStr name) = normalizeCategoryName name) := by
  refine ⟨fun name => ?_, by decide, fun name hne hsp => ?_, fun name hne => ?_⟩
  · exact List.length_take_le 120 _
  · unfold normalizeCategoryName
    rw [if_neg hne]
    have h1 : ∀ c ∈ lowerStr name, pyIsSpace c = true := by
      intro c hc
      rcases List.mem_map.mp hc with ⟨d, hd, rfl⟩
      rw [pyToLower_space (hsp d hd)]
      exact hsp d hd
    rw [show pySplit (lowerStr name) = pySplitAux (lowerStr name) [] from rfl,
      pySplitAux_all_space h1]
    rfl
  · have hmapne : lowerStr name ≠ [] := by
      simpa [lowerStr] using hne
    unfold normalizeCategoryName
    rw [if_neg hmapne, if_neg hne, lowerStr_idem]

/-- Witness for the hypothesised parts of the amended C5: a one-space label
keys to the empty string, and a mixed-case label keys like its lowercase. -/
theorem C5_witness :
    normalizeCategoryName ( " ".toList) = [] ∧
      normalizeCategoryName (lowerStr ( "AbC".toList)) = normalizeCategoryName ( "AbC".toList) :=
  ⟨C5_normalize_key.2.2.1 _ (by decide) (by decide), C5_normalize_key.2.2.2 _ (by decide)⟩

/-! ## C3: time-gap splitting -/

theorem gapWalk_eq_chunkWhen (maxGap : ℚ) :
    ∀ (prev : EmailMessage) (current rest : List EmailMessage),
      gapWalk maxGap prev current rest = chunkWhen (gapBoundary maxGap) prev current rest := by
  intro prev current rest
  induction rest generalizing prev current with
  | nil => rfl
  | cons cur rest ih =>
    rcases hc : cur.date with _ | dc <;> rcases hp : prev.date with _ | dp <;>
      simp [gapWalk, chunkWhen, gapBoundary, hc, hp, ih]

/-- C3: per participant cluster, after the stable date-ascending sort with
undated messages first, the walk starts a new sub-thread at a consecutive pair
exactly when both messages carry a date and their gap strictly exceeds
`maxGapDays` (`gapBoundary`); a pair with an undated side never splits. In
particular two dated messages 10 days apart in one cluster give two Threads at
`maxGapDays = 7` and one Thread at `maxGapDays = 14`. -/
theorem C3_gap_split_iff (maxGap : ℚ) :
    (∀ prev current rest,
      gapWalk maxGap prev current rest = chunkWhen (gapBoundary maxGap) prev current rest) ∧
    (∀ prev cur, prev.date = none ∨ cur.date = none →
      gapBoundary maxGap prev cur = false) ∧
    (buildThreads (7/10) 7
        [⟨ "a".toList, "x".toList, [], [], some 0, [], 0⟩,
         ⟨ "a".toList, "x".toList, [], [], some 10, [], 0⟩]).length = 2 ∧
    (buildThreads (7/10) 14
        [⟨ "a".toList, "x".toList, [], [], some 0, [], 0⟩,
         ⟨ "a".toList, "x".toList, [], [], some 10, [], 0⟩]).length = 1 := by
  refine ⟨gapWalk_eq_chunkWhen maxGap, fun prev cur h => ?_, by decide, by decide⟩
  unfold gapBoundary
  rcases h with h | h <;> rw [h] <;> simp

/-- Witness for the hypothesised part of C3: a pair whose first message is
undated is never a split point. -/
theorem C3_witness :
    gapBoundary 7 ⟨ [], [], [], [], none, [], 0⟩ ⟨ [], [], [], [], some 100, [], 0⟩ = false :=
  (C3_gap_split_iff 7).2.1 _ _ (Or.inl rfl)

/-! ## C2: participant-overlap clustering -/

theorem participantSet_ne_empty (m : EmailMessage) : participantSet m ≠ ∅ :=
  Finset.insert_ne_empty _ _

theorem tryPlace_eq_spec (θ : ℚ) (P : Finset Str) (m : EmailMessage) :
    ∀ (groups : List (List EmailMessage × Finset Str)),
      (∀ gc ∈ groups, gc.2 ≠ ∅) →
      tryPlace θ P m groups = tryPlaceSpec θ P m groups
  | [], _ => rfl
  | (g, C) :: rest, h => by
    rw [tryPlace, tryPlaceSpec, if_neg (h (g, C) (List.mem_cons_self _ _)),
      tryPlace_eq_spec θ P m rest (fun gc hgc => h gc (List.mem_cons_of_mem _ hgc))]

theorem tryPlace_nonempty (θ : ℚ) (P : Finset Str) (m : EmailMessage) (hP : P ≠ ∅) :
    ∀ (groups groups2 : List (List EmailMessage × Finset Str)),
      tryPlace θ P m groups = some groups2 →
      (∀ gc ∈ groups, gc.2 ≠ ∅) → ∀ gc ∈ groups2, gc.2 ≠ ∅
  | [], groups2, htry, _ => by simp [tryPlace] at htry
  | (g, C) :: rest, groups2, htry, h => by
    have hC : C ≠ ∅ := h (g, C) (List.mem_cons_self _ _)
    rw [tryPlace, if_neg hC] at htry
    split at htry
    · rw [Option.some_inj] at htry
      subst htry
      intro gc hgc
      rcases List.mem_cons.mp hgc with rfl | hgc2
      · intro hcontra
        exact hC (Finset.union_eq_empty.mp hcontra).1
      · exact h gc (List.mem_cons_of_mem _ hgc2)
    · rcases hrec : tryPlace θ P m rest with _ | r2
      · rw [hrec] at htry
        simp at htry
      · rw [hrec] at htry
        simp only [Option.map_some', Option.some_inj] at htry
        subst htry
        intro gc hgc
        rcases List.mem_cons.mp hgc with rfl | hgc2
        · exact hC
        · exact tryPlace_nonempty θ P m hP rest r2 hrec
            (fun v hv => h v (List.mem_cons_of_mem _ hv)) gc hgc2

theorem placeAll_eq_spec (θ : ℚ) :
    ∀ (msgs : List EmailMessage) (groups : List (List EmailMessage × Finset Str)),
      (∀ gc ∈ groups, gc.2 ≠ ∅) →
      placeAll θ msgs groups = placeAllSpec θ msgs groups
  | [], _, _ => rfl
  | m :: rest, groups, h => by
    rw [placeAll, placeAllSpec, ← tryPlace_eq_spec θ (participantSet m) m groups h]
    rcases htry : tryPlace θ (participantSet m) m groups with _ | groups2 <;>
      simp only [htry]
    · refine placeAll_eq_spec θ rest _ ?_
      intro gc hgc
      rcases List.mem_append.mp hgc with hgc2 | hgc2
      · exact h gc hgc2
      · rw [List.mem_singleton] at hgc2
        subst hgc2
        exact participantSet_ne_empty m
    · exact placeAll_eq_spec θ rest groups2
        (tryPlace_nonempty θ (participantSet m) m (participantSet_ne_empty m) groups groups2
          htry h)

/-- C2: the code's clustering agrees with the spec's greedy first-match rule
(the code's extra guard skipping empty cumulative sets is immaterial, because
every cluster set contains at least the seeding sender), and two messages with
the same normalized subject, disjoint participant sets and a positive
threshold land in two distinct singleton Threads. -/
theorem C2_greedy_first_match :
    (∀ (θ : ℚ) (msgs : List EmailMessage), splitByParticipants θ msgs =
      if msgs.length ≤ 1 then [msgs] else (placeAllSpec θ msgs []).map (fun g => g.1)) ∧
    (∀ (θ maxGap : ℚ) (m1 m2 : EmailMessage), 0 < θ →
      participantSet m1 ∩ participantSet m2 = ∅ →
      normalizeSubject m1.subject = normalizeSubject m2.subject →
      buildThreads θ maxGap [m1, m2] = [mkThread [m1], mkThread [m2]]) := by
  constructor
  · intro θ msgs
    unfold splitByParticipants
    rw [placeAll_eq_spec θ msgs [] (by simp)]
  · intro θ maxGap m1 m2 hθ hdisj hsubj
    have hgroup : groupBySubject [m1, m2] = [(normalizeSubject m1.subject, [m1, m2])] := by
      unfold groupBySubject
      rw [groupAux, groupAux, groupAux, upsertGroup, upsertGroup, if_pos hsubj]
      rfl
    have hratio : ¬(((participantSet m2 ∩ participantSet m1).card : ℚ) /
        ((max (participantSet m2).card 1 : ℕ) : ℚ) ≥ θ) := by
      rw [Finset.inter_comm] at hdisj
      rw [hdisj]
      simp only [Finset.card_empty, Nat.cast_zero, zero_div, ge_iff_le]
      exact not_le.mpr hθ
    have hsplit : splitByParticipants θ [m1, m2] = [[m1], [m2]] := by
      unfold splitByParticipants
      rw [if_neg (by simp)]
      simp only [placeAll, tryPlace, List.nil_append]
      rw [if_neg (participantSet_ne_empty m1), if_neg hratio]
      rfl
    unfold buildThreads
    rw [if_neg (by simp), hgroup]
    simp only [List.flatMap_cons, List.flatMap_nil, List.append_nil, hsplit]
    rw [show splitByTimeGap maxGap [m1] = [[m1]] from by unfold splitByTimeGap; rw [if_pos (by simp)],
      show splitByTimeGap maxGap [m2] = [[m2]] from by unfold splitByTimeGap; rw [if_pos (by simp)]]
    rfl

/-! ## C9: totality and conservation of thread building -/

theorem upsertGroup_flatten (key : Str) (m : EmailMessage) :
    ∀ (gs : List (Str × List EmailMessage)),
      List.Perm (((upsertGroup key m gs).map (fun kg => kg.2)).flatten)
        ((gs.map (fun kg => kg.2)).flatten ++ [m])
  | [] => by simp [upsertGroup]
  | (k, g) :: rest => by
    by_cases hk : k = key
    · rw [upsertGroup, if_pos hk]
      simp only [List.map_cons, List.flatten_cons, List.append_assoc]
      exact List.Perm.append_left g List.perm_append_comm
    · rw [upsertGroup, if_neg hk]
      simp only [List.map_cons, List.flatten_cons, List.append_assoc]
      exact List.Perm.append_left g (upsertGroup_flatten key m rest)

theorem groupAux_flatten :
    ∀ (msgs : List EmailMessage) (gs : List (Str × List EmailMessage)),
      List.Perm (((groupAux msgs gs).map (fun kg => kg.2)).flatten)
        ((gs.map (fun kg => kg.2)).flatten ++ msgs)
  | [], gs => by simp [groupAux]
  | m :: rest, gs => by
    rw [groupAux]
    refine (groupAux_flatten rest _).trans ?_
    refine (List.Perm.append_right rest
      (upsertGroup_flatten (normalizeSubject m.subject) m gs)).trans ?_
    simp [List.append_assoc]

theorem groupBySubject_flatten (msgs : List EmailMessage) :
    List.Perm (((groupBySubject msgs).map (fun kg => kg.2)).flatten) msgs := by
  simpa using groupAux_flatten msgs []

theorem tryPlace_flatten (θ : ℚ) (P : Finset Str) (m : EmailMessage) :
    ∀ (groups groups2 : List (List EmailMessage × Finset Str)),
      tryPlace θ P m groups = some groups2 →
      List.Perm ((groups2.map (fun g => g.1)).flatten)
        ((groups.map (fun g => g.1)).flatten ++ [m])
  | [], _, htry => by simp [tryPlace] at htry
  | (g, C) :: rest, groups2, htry => by
    rw [tryPlace] at htry
    split at htry
    · rcases hrec : tryPlace θ P m rest with _ | r2 <;> rw [hrec] at htry
      · simp at htry
      · simp only [Option.map_some', Option.some_inj] at htry
        subst htry
        simp only [List.map_cons, List.flatten_cons, List.append_assoc]
        exact List.Perm.append_left g (tryPlace_flatten θ P m rest r2 hrec)
    · split at htry
      · rw [Option.some_inj] at htry
        subst htry
        simp only [List.map_cons, List.flatten_cons, List.append_assoc]
        exact List.Perm.append_left g List.perm_append_comm
      · rcases hrec : tryPlace θ P m rest with _ | r2 <;> rw [hrec] at htry
        · simp at htry
        · simp only [Option.map_some', Option.some_inj] at htry
          subst htry
          simp only [List.map_cons, List.flatten_cons, List.append_assoc]
          exact List.Perm.append_left g (tryPlace_flatten θ P m rest r2 hrec)

theorem placeAll_flatten (θ : ℚ) :
    ∀ (msgs : List EmailMessage) (groups : List (List EmailMessage × Finset Str)),
      List.Perm (((placeAll θ msgs groups).map (fun g => g.1)).flatten)
        ((groups.map (fun g => g.1)).flatten ++ msgs)
  | [], groups => by simp [placeAll]
  | m :: rest, groups => by
    rw [placeAll]
    rcases htry : tryPlace θ (participantSet m) m groups with _ | groups2 <;>
      simp only [htry]
    · refine (placeAll_flatten θ rest _).trans ?_
      simp [List.append_assoc]
    · refine (placeAll_flatten θ rest groups2).trans ?_
      refine (List.Perm.append_right rest
        (tryPlace_flatten θ (participantSet m) m groups groups2 htry)).trans ?_
      simp [List.append_assoc]

theorem splitByParticipants_flatten (θ : ℚ) (msgs : List EmailMessage) :
    List.Perm ((splitByParticipants θ msgs).flatten) msgs := by
  unfold splitByParticipants
  split
  · simp
  · simpa using placeAll_flatten θ msgs []

theorem gapWalk_flatten (maxGap : ℚ) :
    ∀ (prev : EmailMessage) (current rest : List EmailMessage),
      (gapWalk maxGap prev current rest).flatten = current ++ rest
  | _, current, [] => by simp [gapWalk]
  | prev, current, cur :: rest => by
    rw [gapWalk]
    rcases hc : cur.date with _ | dc <;> rcases hp : prev.date with _ | dp <;>
      simp only [List.flatten_cons, gapWalk_flatten maxGap cur, List.append_assoc,
        List.singleton_append, List.cons_append, List.nil_append]
    by_cases hgt : dc - dp > maxGap <;>
      simp [hgt, List.flatten_cons, gapWalk_flatten maxGap cur, List.append_assoc]

theorem splitByTimeGap_flatten (maxGap : ℚ) (msgs : List EmailMessage) :
    List.Perm ((splitByTimeGap maxGap msgs).flatten) msgs := by
  unfold splitByTimeGap
  split
  · simp
  · split
    · simp
    · next first rest heq =>
      rw [gapWalk_flatten]
      have hperm : List.Perm (sortByDate msgs) msgs := List.perm_insertionSort _ msgs
      rw [heq] at hperm
      simpa using hperm

theorem foldSort_perm :
    ∀ (l acc : List EmailMessage),
      List.Perm (l.foldl (fun acc m => sortByDate (acc ++ [m])) acc) (acc ++ l)
  | [], acc => by simp
  | m :: rest, acc => by
    rw [List.foldl_cons]
    refine (foldSort_perm rest _).trans ?_
    refine (List.Perm.append_right rest (List.perm_insertionSort _ _)).trans ?_
    simp [List.append_assoc]

theorem mkThread_messages (sub : List EmailMessage) :
    List.Perm (mkThread sub).messages sub := by
  simpa [mkThread] using foldSort_perm sub []

theorem map_messages_mkThread_flatten :
    ∀ (subs : List (List EmailMessage)),
      List.Perm (((subs.map mkThread).map EmailThread.messages).flatten) subs.flatten
  | [] => by simp
  | sub :: subs => by
    simp only [List.map_cons, List.flatten_cons]
    exact List.Perm.append (mkThread_messages sub) (map_messages_mkThread_flatten subs)

theorem flatMap_splitTime_flatten (maxGap : ℚ) :
    ∀ (parts : List (List EmailMessage)),
      List.Perm ((parts.flatMap (splitByTimeGap maxGap)).flatten) parts.flatten
  | [] => by simp
  | part :: parts => by
    simp only [List.flatMap_cons, List.flatten_append, List.flatten_cons]
    exact List.Perm.append (splitByTimeGap_flatten maxGap part)
      (flatMap_splitTime_flatten maxGap parts)

theorem buildThreads_perm (θ maxGap : ℚ) (msgs : List EmailMessage) :
    List.Perm (((buildThreads θ maxGap msgs).map EmailThread.messages).flatten) msgs := by
  unfold buildThreads
  split
  · next hmsgs => simp [hmsgs]
  · have main : ∀ (groups : List (Str × List EmailMessage)),
        List.Perm (((groups.flatMap fun kg => ((splitByParticipants θ kg.2).flatMap
            (splitByTimeGap maxGap)).map mkThread).map EmailThread.messages).flatten)
          ((groups.map (fun kg => kg.2)).flatten) := by
      intro groups
      induction groups with
      | nil => simp
      | cons kg groups ih =>
        simp only [List.flatMap_cons, List.map_append, List.flatten_append, List.map_cons,
          List.flatten_cons]
        refine List.Perm.append ?_ ih
        refine (map_messages_mkThread_flatten _).trans ?_
        exact (flatMap_splitTime_flatten maxGap _).trans (splitByParticipants_flatten θ kg.2)
    exact (main (groupBySubject msgs)).trans (groupBySubject_flatten msgs)

/-- C9: the builder is total with no error paths — the empty input yields an
empty Thread list (and the categorizer then yields an empty Category list), a
single message yields exactly one Thread, and for every finite input, dated or
not, every message ends up in exactly one Thread (the concatenation of all
thread message lists is a permutation of the input; undated messages are
sorted first, never rejected). -/
theorem C9_build_total (θ maxGap : ℚ) :
    buildThreads θ maxGap [] = [] ∧
    (∀ (a e : Bool) (o : ℕ → ApiOutcome), categorizeThreads a e o [] = []) ∧
    (∀ m : EmailMessage, buildThreads θ maxGap [m] = [mkThread [m]]) ∧
    (∀ msgs : List EmailMessage,
      List.Perm (((buildThreads θ maxGap msgs).map EmailThread.messages).flatten) msgs) := by
  refine ⟨by simp [buildThreads], fun a e o => by simp [categorizeThreads], fun m => ?_,
    buildThreads_perm θ maxGap⟩
  unfold buildThreads
  rw [if_neg (by simp)]
  rw [show groupBySubject [m] = [(normalizeSubject m.subject, [m])] from rfl]
  simp only [List.flatMap_cons, List.flatMap_nil, List.append_nil]
  rw [show splitByParticipants θ [m] = [[m]] from by
    unfold splitByParticipants
    rw [if_pos (by simp)]]
  simp only [List.flatMap_cons, List.flatMap_nil, List.append_nil]
  rw [show splitByTimeGap maxGap [m] = [[m]] from by
    unfold splitByTimeGap
    rw [if_pos (by simp)]]
  rfl

/-- Witness for C2: concrete disjoint-participant messages under the default
threshold. -/
theorem C2_witness :
    buildThreads (7/10) 7
        [⟨ "b".toList, "a@x".toList, [], [], none, [], 0⟩,
         ⟨ "b".toList, "c@x".toList, [], [], none, [], 0⟩] =
      [mkThread [⟨ "b".toList, "a@x".toList, [], [], none, [], 0⟩],
       mkThread [⟨ "b".toList, "c@x".toList, [], [], none, [], 0⟩]] :=
  C2_greedy_first_match.2 (7/10) 7 _ _ (by norm_num) (by decide) (by decide)

/-! ## C4: categorizer invariants -/

theorem appendThreadAt_map_name :
    ∀ (cats : List ThreadCategory) (i : ℕ) (t : EmailThread),
      (appendThreadAt cats i t).map (fun c => c.name) = cats.map (fun c => c.name)
  | [], _, _ => rfl
  | _ :: _, 0, _ => rfl
  | c :: cs, n + 1, t => by
    rw [appendThreadAt, List.map_cons, List.map_cons, appendThreadAt_map_name cs n t]

theorem appendThreadAt_map_catKey (cats : List ThreadCategory) (i : ℕ) (t : EmailThread) :
    (appendThreadAt cats i t).map catKey = cats.map catKey := by
  have h := appendThreadAt_map_name cats i t
  have h2 : ∀ (l : List ThreadCategory),
      l.map catKey = (l.map (fun c => c.name)).map normalizeCategoryName := by
    intro l
    rw [List.map_map]
    rfl
  rw [h2, h2, h]

theorem idxOfKey_appendThreadAt (key : Str) :
    ∀ (cats : List ThreadCategory) (i : ℕ) (t : EmailThread),
      idxOfKey key (appendThreadAt cats i t) = idxOfKey key cats
  | [], _, _ => rfl
  | _ :: _, 0, _ => rfl
  | c :: cs, n + 1, t => by
    rw [appendThreadAt, idxOfKey, idxOfKey, idxOfKey_appendThreadAt key cs n t]

theorem idxOfKey_eq_none_iff (key : Str) :
    ∀ (cats : List ThreadCategory), idxOfKey key cats = none ↔ key ∉ cats.map catKey
  | [] => by simp [idxOfKey]
  | c :: cs => by
    rw [idxOfKey, List.map_cons]
    by_cases h : catKey c = key
    · simp [h]
    · simp only [if_neg h, List.mem_cons]
      rw [Option.map_eq_none']
      constructor
      · intro hnone hmem
        rcases hmem with hmem | hmem
        · exact h hmem.symm
        · exact ((idxOfKey_eq_none_iff key cs).mp hnone) hmem
      · intro hmem
        exact (idxOfKey_eq_none_iff key cs).mpr (fun hc => hmem (Or.inr hc))

theorem idxOfKey_lt (key : Str) :
    ∀ (cats : List ThreadCategory) (i : ℕ), idxOfKey key cats = some i → i < cats.length
  | [], i, h => by simp [idxOfKey] at h
  | c :: cs, i, h => by
    rw [idxOfKey] at h
    split at h
    · rw [Option.some_inj] at h
      subst h
      simp
    · rcases hr : idxOfKey key cs with _ | j <;> rw [hr] at h
      · simp at h
      · simp only [Option.map_some', Option.some_inj] at h
        subst h
        simpa using idxOfKey_lt key cs j hr

theorem idxOfKey_append_single (key : Str) (newc : ThreadCategory) :
    ∀ (cats : List ThreadCategory),
      idxOfKey key (cats ++ [newc]) =
        match idxOfKey key cats with
        | some i => some i
        | none => if catKey newc = key then some cats.length else none
  | [] => by
    rw [List.nil_append, idxOfKey, idxOfKey]
    split <;> simp [idxOfKey]
  | c :: cs => by
    rw [List.cons_append, idxOfKey, idxOfKey]
    by_cases h : catKey c = key
    · simp [h]
    · simp only [if_neg h]
      rw [idxOfKey_append_single key newc cs]
      rcases hi : idxOfKey key cs with _ | j
      · simp only []
        split <;> simp [List.length_cons]
      · simp

theorem keyFind_append_single (key : Str) (k : Str) (n : ℕ) :
    ∀ (keys : List (Str × ℕ)),
      keyFind key (keys ++ [(k, n)]) =
        match keyFind key keys with
        | some i => some i
        | none => if k = key then some n else none
  | [] => by
    rw [List.nil_append, keyFind, keyFind]
    rfl
  | (k2, i2) :: keys => by
    rw [List.cons_append, keyFind, keyFind]
    by_cases h : k2 = key
    · simp [h]
    · simp only [if_neg h]
      exact keyFind_append_single key k n keys

theorem joinThreads_appendThreadAt :
    ∀ (cats : List ThreadCategory) (i : ℕ) (t : EmailThread), i < cats.length →
      List.Perm (joinThreads (appendThreadAt cats i t)) (joinThreads cats ++ [t])
  | [], i, t, h => by simp at h
  | c :: cs, 0, t, _ => by
    simp only [appendThreadAt, joinThreads, List.map_cons, List.flatten_cons,
      List.append_assoc]
    exact List.Perm.append_left c.threads List.perm_append_comm
  | c :: cs, n + 1, t, h => by
    simp only [appendThreadAt, joinThreads, List.map_cons, List.flatten_cons,
      List.append_assoc]
    refine List.Perm.append_left c.threads ?_
    have hrec := joinThreads_appendThreadAt cs n t (by simpa using h)
    simpa [joinThreads, List.append_assoc] using hrec

theorem catRun_invariants (aiEnabled : Bool) (outcomes : ℕ → ApiOutcome) :
    ∀ (ts : List EmailThread) (i : ℕ) (enabled : Bool) (cats : List ThreadCategory)
      (keys : List (Str × ℕ)),
      (∀ key, keyFind key keys = idxOfKey key cats) →
      (cats.map catKey).Nodup →
      ((catRun aiEnabled outcomes i enabled cats keys ts).2.map catKey).Nodup ∧
      List.Perm (joinThreads (catRun aiEnabled outcomes i enabled cats keys ts).2)
        (joinThreads cats ++ ts)
  | [], i, e, cats, keys, hinv, hnodup => ⟨by simpa [catRun], by simp [catRun]⟩
  | t :: rest, i, e, cats, keys, hinv, hnodup => by
    simp only [catRun]
    rcases hfind : keyFind (normalizeCategoryName
        (catStepLabel aiEnabled e (outcomes i) t).name) keys with _ | idx <;>
      simp only [hfind]
    · -- new category
      set info := catStepLabel aiEnabled e (outcomes i) t with hinfo
      set key := normalizeCategoryName info.name with hkey
      have hnone : idxOfKey key cats = none := by rw [← hinv]; exact hfind
      have hnotmem : key ∉ cats.map catKey := (idxOfKey_eq_none_iff key cats).mp hnone
      have hinv2 : ∀ key2, keyFind key2 (keys ++ [(key, cats.length)]) =
          idxOfKey key2 (cats ++ [(⟨cats.length + 1, info.name, info.desc, [t]⟩ :
            ThreadCategory)]) := by
        intro key2
        rw [keyFind_append_single, idxOfKey_append_single, hinv key2]
        rcases idxOfKey key2 cats with _ | j
        · simp only []
          rfl
        · rfl
      have hnodup2 : ((cats ++ [(⟨cats.length + 1, info.name, info.desc, [t]⟩ :
          ThreadCategory)]).map catKey).Nodup := by
        rw [List.map_append]
        simp only [List.map_cons, List.map_nil]
        rw [List.nodup_append]
        refine ⟨hnodup, List.nodup_singleton _, ?_⟩
        intro x hx
        simp only [List.mem_singleton]
        intro hcontra
        subst hcontra
        exact hnotmem hx
      obtain ⟨hn, hp⟩ := catRun_invariants aiEnabled outcomes rest (i + 1) info.enabledAfter
        _ _ hinv2 hnodup2
      refine ⟨hn, hp.trans ?_⟩
      simp [joinThreads, List.append_assoc]
    · -- existing category
      set info := catStepLabel aiEnabled e (outcomes i) t with hinfo
      set key := normalizeCategoryName info.name with hkey
      have hsome : idxOfKey key cats = some idx := by rw [← hinv]; exact hfind
      have hlt : idx < cats.length := idxOfKey_lt key cats idx hsome
      have hinv2 : ∀ key2, keyFind key2 keys = idxOfKey key2 (appendThreadAt cats idx t) := by
        intro key2
        rw [idxOfKey_appendThreadAt, hinv key2]
      have hnodup2 : ((appendThreadAt cats idx t).map catKey).Nodup := by
        rw [appendThreadAt_map_catKey]
        exact hnodup
      obtain ⟨hn, hp⟩ := catRun_invariants aiEnabled outcomes rest (i + 1) info.enabledAfter
        _ _ hinv2 hnodup2
      refine ⟨hn, hp.trans ?_⟩
      refine (List.Perm.append_right rest (joinThreads_appendThreadAt cats idx t hlt)).trans ?_
      simp [List.append_assoc]

/-- C4: for every input thread sequence and every sequence of classifier
responses, the returned categories carry pairwise distinct normalized keys,
the threads they own are exactly the input threads (each in exactly one
category), and the thread counts sum to the input count; labels differing
only by case or whitespace merge into one category. -/
theorem C4_category_invariants :
    (∀ (aiEnabled enabled : Bool) (outcomes : ℕ → ApiOutcome) (threads : List EmailThread),
      ((categorizeThreads aiEnabled enabled outcomes threads).map catKey).Nodup ∧
      List.Perm (joinThreads (categorizeThreads aiEnabled enabled outcomes threads)) threads ∧
      ((categorizeThreads aiEnabled enabled outcomes threads).map
        (fun c => c.threads.length)).sum = threads.length) ∧
    (categorizeThreads true true
        (fun i => if i = 0 then .success ( "Категория: Project Alpha".toList)
          else .success ( "Категория: project   alpha".toList))
        [mkThread [⟨ "a".toList, "x".toList, [], [], none, [], 0⟩],
         mkThread [⟨ "b".toList, "y".toList, [], [], none, [], 0⟩]]).length = 1 := by
  constructor
  · intro a e o ts
    unfold categorizeThreads
    split
    · next h =>
      subst h
      simp [joinThreads]
    · obtain ⟨hnodup, hperm⟩ := catRun_invariants a o ts 0 e [] [] (fun _ => rfl) (by simp)
      have hperm2 : List.Perm (joinThreads (catRun a o 0 e [] [] ts).2) ts := by
        simpa [joinThreads] using hperm
      refine ⟨hnodup, hperm2, ?_⟩
      have hlen := hperm2.length_eq
      rw [joinThreads, List.length_flatten, List.map_map] at hlen
      exact hlen
  · decide

/-! ## C6 and C7: circuit breaker and fallback -/

theorem catRun_fst (a : Bool) (o : ℕ → ApiOutcome) :
    ∀ (ts : List EmailThread) (i : ℕ) (e : Bool) (cats : List ThreadCategory)
      (keys : List (Str × ℕ)),
      (catRun a o i e cats keys ts).1 = labelRun a o i e ts
  | [], _, _, _, _ => rfl
  | t :: rest, i, e, cats, keys => by
    simp only [catRun, labelRun]
    rcases hfind : keyFind (normalizeCategoryName
        (catStepLabel a e (o i) t).name) keys with _ | idx <;>
      simp only [hfind] <;> rw [catRun_fst a o rest]

theorem labelRun_length (a : Bool) (o : ℕ → ApiOutcome) :
    ∀ (ts : List EmailThread) (i : ℕ) (e : Bool), (labelRun a o i e ts).length = ts.length
  | [], _, _ => rfl
  | t :: rest, i, e => by
    simp only [labelRun, List.length_cons, labelRun_length a o rest]

theorem catStepLabel_disabled (a : Bool) (out : ApiOutcome) (t : EmailThread) :
    catStepLabel a false out t =
      ⟨false, t.subject.take 50, localFallbackDesc t.messageCount, false⟩ := by
  unfold catStepLabel
  simp

theorem labelRun_disabled (a : Bool) (o : ℕ → ApiOutcome) :
    ∀ (ts : List EmailThread) (i : ℕ),
      labelRun a o i false ts =
        ts.map fun t => ⟨false, t.subject.take 50, localFallbackDesc t.messageCount, false⟩
  | [], _ => rfl
  | t :: rest, i => by
    simp only [labelRun, catStepLabel_disabled, List.map_cons]
    rw [labelRun_disabled a o rest]

theorem labelRun_get (a : Bool) (o : ℕ → ApiOutcome) :
    ∀ (ts : List EmailThread) (i : ℕ) (e : Bool) (j : ℕ) (sj : StepInfo),
      (labelRun a o i e ts)[j]? = some sj →
      (∃ e2 tj, ts[j]? = some tj ∧ sj = catStepLabel a e2 (o (i + j)) tj) ∧
      (labelRun a o i e ts).drop (j + 1) =
        labelRun a o (i + j + 1) sj.enabledAfter (ts.drop (j + 1))
  | [], i, e, j, sj => by
    intro h
    simp [labelRun] at h
  | t :: rest, i, e, j, sj => by
    intro h
    cases j with
    | zero =>
      simp only [labelRun, List.getElem?_cons_zero, Option.some_inj] at h
      subst h
      refine ⟨⟨e, t, by simp, by rw [Nat.add_zero]⟩, ?_⟩
      simp only [labelRun, List.drop_succ_cons, List.drop_zero, Nat.add_zero]
    | succ j2 =>
      simp only [labelRun, List.getElem?_cons_succ] at h
      obtain ⟨⟨e2, tj, htj, hsj⟩, hdrop⟩ := labelRun_get a o rest (i + 1) _ j2 sj h
      refine ⟨⟨e2, tj, by simpa using htj, by rw [hsj]; congr 2; omega⟩, ?_⟩
      simp only [labelRun, List.drop_succ_cons]
      rw [hdrop]
      congr 2
      omega

/-- C6: once an invoked classification fails with an error matching the auth
signature, the client state is cleared and every later step in the same run
is the local fallback: not invoked, still disabled, label the truncated
subject, description the message-count template. -/
theorem C6_circuit_breaker (aiEnabled e0 : Bool) (outcomes : ℕ → ApiOutcome)
    (threads : List EmailThread) (i j : ℕ) (si sj : StepInfo) (tj : EmailThread) (err : Str)
    (hij : i < j)
    (hi : (catRun aiEnabled outcomes 0 e0 [] [] threads).1[i]? = some si)
    (hinvoked : si.invoked = true)
    (herr : outcomes i = .failure err)
    (hauth : isAuthError err = true)
    (hj : (catRun aiEnabled outcomes 0 e0 [] [] threads).1[j]? = some sj)
    (htj : threads[j]? = some tj) :
    sj.invoked = false ∧ sj.enabledAfter = false ∧
      sj.name = tj.subject.take 50 ∧ sj.desc = localFallbackDesc tj.messageCount := by
  rw [catRun_fst] at hi hj
  obtain ⟨⟨e2, ti, hti, hsi⟩, hdrop⟩ := labelRun_get aiEnabled outcomes threads 0 e0 i si hi
  rw [Nat.zero_add] at hsi
  have hen : si.enabledAfter = false := by
    rw [hsi] at hinvoked ⊢
    unfold catStepLabel at hinvoked ⊢
    by_cases hcond : (aiEnabled && e2) = true
    · rw [if_pos hcond] at hinvoked ⊢
      rw [herr] at hinvoked ⊢
      simp [hauth]
    · rw [if_neg hcond] at hinvoked
      simp at hinvoked
  rw [hen] at hdrop
  obtain ⟨d, rfl⟩ : ∃ d, j = i + 1 + d := ⟨j - i - 1, by omega⟩
  have hj2 : ((labelRun aiEnabled outcomes 0 e0 threads).drop (i + 1))[d]? = some sj := by
    rw [List.getElem?_drop]
    exact hj
  rw [hdrop, labelRun_disabled] at hj2
  rw [List.getElem?_map] at hj2
  have htj2 : (threads.drop (i + 1))[d]? = some tj := by
    rw [List.getElem?_drop]
    exact htj
  rw [htj2] at hj2
  simp only [Option.map_some', Option.some_inj] at hj2
  rw [← hj2]
  exact ⟨rfl, rfl, rfl, rfl⟩

/-- C7 counterexample: on a raised classifier error the description is the
fixed constant string, which does not incorporate the thread's message count
(it equals the description produced for a thread with a different count, and
differs from the message-count template). -/
theorem C7_counterexample :
    (catStepLabel true true (.failure ( "boom".toList))
        (mkThread [(⟨ "s".toList, [], [], [], none, [], 0⟩ : EmailMessage),
          ⟨ "s".toList, [], [], [], none, [], 0⟩])).desc ≠
      localFallbackDesc (mkThread [(⟨ "s".toList, [], [], [], none, [], 0⟩ : EmailMessage),
        ⟨ "s".toList, [], [], [], none, [], 0⟩]).messageCount ∧
    (catStepLabel true true (.failure ( "boom".toList))
        (mkThread [(⟨ "s".toList, [], [], [], none, [], 0⟩ : EmailMessage),
          ⟨ "s".toList, [], [], [], none, [], 0⟩])).desc =
      (catStepLabel true true (.failure ( "boom".toList))
        (mkThread [(⟨ "s".toList, [], [], [], none, [], 0⟩ : EmailMessage)])).desc := by
  constructor
  · decide
  · decide

/-- C7 (amended): whenever a classify call raises, the adopted label is the
subject truncated to 50 characters and the description is the fixed constant
string (no message count); whenever the classifier is disabled or unusable,
the label is the truncated subject and the description is the message-count
template. Failures are recovered locally: the run always produces exactly one
step per thread. -/
theorem C7_fallback :
    (∀ (a e : Bool) (t : EmailThread) (err : Str), (a && e) = true →
      catStepLabel a e (.failure err) t =
        ⟨true, t.subject.take 50, apiFallbackDesc, !isAuthError err⟩) ∧
    (∀ (a e : Bool) (t : EmailThread) (out : ApiOutcome), (a && e) = false →
      catStepLabel a e out t =
        ⟨false, t.subject.take 50, localFallbackDesc t.messageCount, e⟩) ∧
    (∀ (a : Bool) (o : ℕ → ApiOutcome) (i : ℕ) (e : Bool) (cats : List ThreadCategory)
      (keys : List (Str × ℕ)) (ts : List EmailThread),
      (catRun a o i e cats keys ts).1.length = ts.length) := by
  refine ⟨fun a e t err hcond => ?_, fun a e t out hcond => ?_, fun a o i e cats keys ts => ?_⟩
  · unfold catStepLabel
    rw [if_pos hcond]
  · unfold catStepLabel
    rw [if_neg (by simp [hcond])]
  · rw [catRun_fst, labelRun_length]

/-- Witness for C6: a two-thread run whose first call fails with a 401-style
error; the second step is the uninvoked local fallback. -/
theorem C6_witness :
    (catRun true (fun i => if i = 0 then .failure ( "401 unauthorized".toList)
        else .success ( "Категория: X".toList)) 0 true [] []
      [mkThread [(⟨ "s".toList, [], [], [], none, [], 0⟩ : EmailMessage)],
       mkThread [(⟨ "t".toList, [], [], [], none, [], 0⟩ : EmailMessage)]]).1[1]?.all
      (fun sj => !sj.invoked) = true := by
  have h := C6_circuit_breaker true true
    (fun i => if i = 0 then .failure ( "401 unauthorized".toList)
      else .success ( "Категория: X".toList))
    [mkThread [(⟨ "s".toList, [], [], [], none, [], 0⟩ : EmailMessage)],
     mkThread [(⟨ "t".toList, [], [], [], none, [], 0⟩ : EmailMessage)]]
    0 1
    ⟨true, ( "s".toList).take 50, apiFallbackDesc, false⟩
    ⟨false, ( "t".toList).take 50, localFallbackDesc 1, false⟩
    (mkThread [(⟨ "t".toList, [], [], [], none, [], 0⟩ : EmailMessage)])
    ( "401 unauthorized".toList)
    (by decide) (by decide) (by decide) (by decide) (by decide) (by decide) (by decide)
  decide

/-- Witness for C7: the fallback shapes at concrete inputs. -/
theorem C7_witness :
    catStepLabel true true (.failure ( "boom".toList))
        (mkThread [(⟨ "s".toList, [], [], [], none, [], 0⟩ : EmailMessage)]) =
      ⟨true, ( "s".toList).take 50, apiFallbackDesc, true⟩ ∧
    catStepLabel true false (.success ( "x".toList))
        (mkThread [(⟨ "s".toList, [], [], [], none, [], 0⟩ : EmailMessage)]) =
      ⟨false, ( "s".toList).take 50, localFallbackDesc 1, false⟩ := by
  constructor
  · have h := C7_fallback.1 true true
      (mkThread [(⟨ "s".toList, [], [], [], none, [], 0⟩ : EmailMessage)])
      ( "boom".toList) (by decide)
    rw [h]
    decide
  · have h := C7_fallback.2.1 true false
      (mkThread [(⟨ "s".toList, [], [], [], none, [], 0⟩ : EmailMessage)])
      (.success ( "x".toList)) (by decide)
    rw [h]
    decide

/-! ## C8: keyword extraction -/

theorem firstUniqAux_subset :
    ∀ (ws seen : List Str) (w : Str), w ∈ firstUniqAux ws seen → w ∈ ws
  | [], _, _, h => by simp [firstUniqAux] at h
  | v :: rest, seen, w, h => by
    rw [firstUniqAux] at h
    split at h
    · exact List.mem_cons_of_mem _ (firstUniqAux_subset rest seen w h)
    · rcases List.mem_cons.mp h with rfl | h2
      · exact List.mem_cons_self _ _
      · exact List.mem_cons_of_mem _ (firstUniqAux_subset rest _ w h2)

theorem mem_firstUniqAux :
    ∀ (ws seen : List Str) (w : Str), w ∈ ws → w ∉ seen → w ∈ firstUniqAux ws seen
  | [], _, _, hw, _ => by simp at hw
  | v :: rest, seen, w, hw, hseen => by
    rw [firstUniqAux]
    split
    · next hv =>
      rcases List.mem_cons.mp hw with rfl | h2
      · exact absurd hv hseen
      · exact mem_firstUniqAux rest seen w h2 hseen
    · next hv =>
      rcases List.mem_cons.mp hw with rfl | h2
      · exact List.mem_cons_self _ _
      · by_cases hwv : w = v
        · subst hwv
          exact List.mem_cons_self _ _
        · refine List.mem_cons_of_mem _ (mem_firstUniqAux rest _ w h2 ?_)
          intro hcontra
          rcases List.mem_cons.mp hcontra with h3 | h3
          · exact hwv h3
          · exact hseen h3

theorem mostCommon_strict_max (ws : List Str) (n : ℕ) (w : Str)
    (hw : w ∈ ws) (hmax : ∀ v ∈ ws, v ≠ w → countTok v ws < countTok w ws)
    (hn : 1 ≤ n) : w ∈ mostCommon ws n := by
  unfold mostCommon
  haveI htot : IsTotal Str (fun a b => countTok b ws ≤ countTok a ws) :=
    ⟨fun a b => le_total (countTok b ws) (countTok a ws)⟩
  haveI htrans : IsTrans Str (fun a b => countTok b ws ≤ countTok a ws) :=
    ⟨fun a b c hab hbc => le_trans hbc hab⟩
  have hmem : w ∈ firstUniqAux ws [] := mem_firstUniqAux ws [] w hw (by simp)
  have hperm := List.perm_insertionSort (fun a b => countTok b ws ≤ countTok a ws)
    (firstUniqAux ws [])
  have hmem2 : w ∈ (firstUniqAux ws []).insertionSort
      (fun a b => countTok b ws ≤ countTok a ws) := hperm.mem_iff.mpr hmem
  have hsorted := List.sorted_insertionSort (fun a b => countTok b ws ≤ countTok a ws)
    (firstUniqAux ws [])
  rcases hlist : (firstUniqAux ws []).insertionSort
      (fun a b => countTok b ws ≤ countTok a ws) with _ | ⟨h0, tail⟩
  · rw [hlist] at hmem2
    simp at hmem2
  · rw [hlist] at hmem2 hsorted
    by_cases hh : h0 = w
    · subst hh
      cases n with
      | zero => omega
      | succ k =>
        rw [List.take_succ_cons]
        exact List.mem_cons_self _ _
    · rcases List.mem_cons.mp hmem2 with rfl | hw2
      · exact absurd rfl hh
      · have hrel : countTok w ws ≤ countTok h0 ws :=
          (List.sorted_cons.mp hsorted).1 w hw2
        have hh0 : h0 ∈ ws := by
          refine firstUniqAux_subset ws [] h0 (hperm.mem_iff.mp ?_)
          rw [hlist]
          exact List.mem_cons_self _ _
        have hlt := hmax h0 hh0 hh
        omega

/-- C8 counterexample: the regex tokenizes runs of length at least 3, but the
filter keeps only tokens of length strictly greater than 3, so a length-3
token — even the only and most frequent token, not a stopword — never appears
in the output. -/
theorem C8_counterexample :
    findTokens (lowerStr (threadText (mkThread [(⟨ [], [], [], [], none,
        "abc abc abc".toList, 0⟩ : EmailMessage)]))) =
      [ "abc".toList, "abc".toList, "abc".toList] ∧
    ( "abc".toList) ∉ stopWords ∧
    extractKeywords (mkThread [(⟨ [], [], [], [], none,
      "abc abc abc".toList, 0⟩ : EmailMessage)]) 10 = [] := by
  refine ⟨by decide, by decide, by decide⟩

/-- C8 (amended): keyword extraction tokenizes the lowercased text on
alphanumeric (Latin/Cyrillic) runs of length at least 3, but then keeps only
non-stopword tokens of length at least 4, counts frequencies and returns the
topN most frequent. Every returned keyword has length strictly greater than 3
and is no stopword, and a strictly most frequent candidate token is returned
whenever topN is at least 1. -/
theorem C8_keywords :
    (∀ (t : EmailThread) (topN : ℕ) (w : Str), w ∈ extractKeywords t topN →
      3 < w.length ∧ w ∉ stopWords) ∧
    (∀ (t : EmailThread) (topN : ℕ) (w : Str), w ∈ keywordCandidates t →
      (∀ v ∈ keywordCandidates t, v ≠ w →
        countTok v (keywordCandidates t) < countTok w (keywordCandidates t)) →
      1 ≤ topN → w ∈ extractKeywords t topN) := by
  constructor
  · intro t topN w h
    unfold extractKeywords mostCommon at h
    have h2 := List.mem_of_mem_take h
    have h3 : w ∈ firstUniqAux (keywordCandidates t) [] :=
      (List.perm_insertionSort _ _).mem_iff.mp h2
    have h4 : w ∈ keywordCandidates t := firstUniqAux_subset _ _ _ h3
    have h5 := List.of_mem_filter h4
    simpa using h5
  · intro t topN w hw hmax hn
    exact mostCommon_strict_max (keywordCandidates t) topN w hw hmax hn

/-- Witness for C8: in `"abcd abcd xyzw"` the token `abcd` is strictly most
frequent and is returned; every returned keyword is long and not a stopword. -/
theorem C8_witness :
    ( "abcd".toList) ∈ extractKeywords (mkThread [(⟨ [], [], [], [], none,
        "abcd abcd xyzw".toList, 0⟩ : EmailMessage)]) 10 ∧
    (3 < ( "abcd".toList).length ∧ ( "abcd".toList) ∉ stopWords) := by
  constructor
  · exact C8_keywords.2 (mkThread [(⟨ [], [], [], [], none,
      "abcd abcd xyzw".toList, 0⟩ : EmailMessage)]) 10 ( "abcd".toList)
      (by decide) (by decide) (by decide)
  · exact C8_keywords.1 (mkThread [(⟨ [], [], [], [], none,
      "abcd abcd xyzw".toList, 0⟩ : EmailMessage)]) 10 ( "abcd".toList) (by decide)

/-! ## C10: missing category marker in a successful response -/

theorem parseCatLines_no_marker :
    ∀ (lines : List Str) (acc : Str × Str),
      (∀ line ∈ lines, headMatches ( "Категория:".toList) line = false ∧
        headMatches ( "Category:".toList) line = false) →
      (parseCatLines lines acc).1 = acc.1
  | [], _, _ => rfl
  | line :: rest, acc, h => by
    obtain ⟨h1, h2⟩ := h line (List.mem_cons_self _ _)
    rw [parseCatLines, if_neg (by rw [h1, h2]; simp)]
    split
    · exact parseCatLines_no_marker rest _ (fun l hl => h l (List.mem_cons_of_mem _ hl))
    · exact parseCatLines_no_marker rest acc (fun l hl => h l (List.mem_cons_of_mem _ hl))

/-- C10: when a classify call succeeds but no line of the response starts with
a category marker, the parsed label is the default `"Без категории"` (the
subject fallback is not used), and two threads whose successful responses both
lack the marker land in one single category. -/
theorem C10_missing_marker :
    (∀ content : Str,
      (∀ line ∈ splitChar (Char.ofNat 10) content,
        headMatches ( "Категория:".toList) line = false ∧
        headMatches ( "Category:".toList) line = false) →
      (parseCategorization content).1 = defaultCategoryName) ∧
    (∀ (t1 t2 : EmailThread) (c1 c2 : Str) (outcomes : ℕ → ApiOutcome),
      outcomes 0 = .success c1 → outcomes 1 = .success c2 →
      (∀ line ∈ splitChar (Char.ofNat 10) c1,
        headMatches ( "Категория:".toList) line = false ∧
        headMatches ( "Category:".toList) line = false) →
      (∀ line ∈ splitChar (Char.ofNat 10) c2,
        headMatches ( "Категория:".toList) line = false ∧
        headMatches ( "Category:".toList) line = false) →
      (categorizeThreads true true outcomes [t1, t2]).length = 1) := by
  have hparse : ∀ content : Str,
      (∀ line ∈ splitChar (Char.ofNat 10) content,
        headMatches ( "Категория:".toList) line = false ∧
        headMatches ( "Category:".toList) line = false) →
      (parseCategorization content).1 = defaultCategoryName := by
    intro content h
    unfold parseCategorization
    exact parseCatLines_no_marker _ _ h
  refine ⟨hparse, fun t1 t2 c1 c2 outcomes ho0 ho1 hc1 hc2 => ?_⟩
  unfold categorizeThreads
  rw [if_neg (by simp)]
  simp only [catRun]
  rw [ho0]
  have hstep1 : catStepLabel true true (.success c1) t1 =
      ⟨true, (parseCategorization c1).1, (parseCategorization c1).2, true⟩ := by
    unfold catStepLabel
    simp
  rw [hstep1]
  simp only [hparse c1 hc1]
  rw [show keyFind (normalizeCategoryName defaultCategoryName) [] = none from rfl]
  simp only []
  rw [ho1]
  have hstep2 : catStepLabel true true (.success c2) t2 =
      ⟨true, (parseCategorization c2).1, (parseCategorization c2).2, true⟩ := by
    unfold catStepLabel
    simp
  rw [hstep2]
  simp only [hparse c2 hc2]
  simp only [List.nil_append, List.length_nil]
  rw [show keyFind (normalizeCategoryName defaultCategoryName)
    [(normalizeCategoryName defaultCategoryName, 0)] = some 0 from by
      simp [keyFind]]
  simp only [catRun]
  rfl

/-- Witness for C10: a successful response with no marker line parses to the
default label, and two such responses merge two threads into one category. -/
theorem C10_witness :
    (parseCategorization ( "hello\nworld".toList)).1 = defaultCategoryName ∧
    (categorizeThreads true true
        (fun i => if i = 0 then .success ( "hello".toList) else .success ( "world".toList))
        [mkThread [(⟨ "a".toList, [], [], [], none, [], 0⟩ : EmailMessage)],
         mkThread [(⟨ "b".toList, [], [], [], none, [], 0⟩ : EmailMessage)]]).length = 1 := by
  constructor
  · exact C10_missing_marker.1 ( "hello\nworld".toList) (by decide)
  · exact C10_missing_marker.2 _ _ ( "hello".toList) ( "world".toList) _
      rfl rfl (by decide) (by decide)

end Core

end ReportMaster
